import Mathlib

/-!
Verification of the Shamir secret-sharing reconstructor.

The development shallowly embeds the two reference implementations:
`src/index.js` (the JavaScript pipeline: `decodeValue`, `lagrangeAtZero`,
`combinations`, `findSecret`) and the Java `Fraction` class from the
companion file.  JavaScript `BigInt` arithmetic is modelled by `Int`;
`BigInt` division truncates toward zero, so it is `Int.tdiv`; a thrown
JavaScript exception is modelled by `Except.error` carrying the error
kind of the failure mode (the specification's taxonomy, section 7).
-/

deriving instance DecidableEq for Except

namespace Hd

/-- The specification's error kinds (spec section 7).  The JavaScript code
raises language-native exceptions; each reachable exceptional exit is
mapped to the kind naming its failure mode: the `BigInt(parseInt(...))`
RangeError on a bad digit is `invalidDigit`, a `BigInt` division by zero
is `divisionByZero`, and the `BigInt(null)` TypeError reached when no
combination exists is `insufficientShares`.  The remaining kinds are
listed by the spec but, as the theorems below show, never produced by
the code. -/
inductive Err
  | invalidDigit
  | divisionByZero
  | duplicateAbscissa
  | insufficientShares
  | nonIntegerResult
  | noMajority
deriving DecidableEq

/-- A share: a point `(x, y)` with arbitrary-precision integer
coordinates (`{x, y}` objects with `BigInt` fields in `index.js`). -/
structure Point where
  x : Int
  y : Int
deriving DecidableEq

/-- Digit lookup of `parseInt(char, radix)` for a single lowercase
character: `'0'..'9'` map to `0..9` and `'a'..'z'` to `10..35`; any
other character has no digit value. -/
def jsDigitValue (c : Char) : Option Nat :=
  if '0' ≤ c ∧ c ≤ '9' then some (c.toNat - '0'.toNat)
  else if 'a' ≤ c ∧ c ≤ 'z' then some (c.toNat - 'a'.toNat + 10)
  else none

/-- `decodeValue(base, valueStr)` from `index.js`: lowercase the string,
then fold left-to-right with `result = result * base + digit`.  A
character whose `parseInt` digit value is undefined or not below the
base yields `NaN`, and `BigInt(NaN)` throws: error kind `invalidDigit`.
Faithful for radixes in `[2, 36]` (the contract's range). -/
def decodeStep (base : Nat) (result : Int) (c : Char) : Except Err Int :=
  match jsDigitValue c with
  | some v =>
    if v < base then Except.ok (result * (base : Int) + (v : Int))
    else Except.error Err.invalidDigit
  | none => Except.error Err.invalidDigit

/-- See `decodeStep` for the loop body. -/
def decodeValue (base : Nat) (valueStr : String) : Except Err Int :=
  (valueStr.data.map Char.toLower).foldlM (decodeStep base) (0 : Int)

/-- Propagation of a thrown exception through a subcomputation: the
value on success, the same error otherwise (JavaScript exceptions
simply propagate to the caller). -/
def jsBind {α β : Type} (s : Except Err α) (k : α → Except Err β) :
    Except Err β :=
  match s with
  | Except.error e => Except.error e
  | Except.ok t => k t

/-- The Euclidean `gcd` helper inside `lagrangeAtZero` first replaces
both arguments by their absolute values; its loop computes exactly the
natural gcd of those, i.e. `Int.gcd`. -/
def jsGcd (a b : Int) : Int := (Int.gcd a b : Int)

/-- `simplify(n, d)` from `index.js`: move the sign of `d` to `n`, then
divide both by `g = gcd(|n|, d)`.  The source divides with `BigInt`
division (`Int.tdiv`, exact here); when `g = 0` — only possible for
`n = d = 0` — that division is `0n / 0n` and throws a RangeError:
error kind `divisionByZero`.  Note the source never checks `d` itself,
so `simplify(n, 0)` with `n ≠ 0` returns the pair `(sign n, 0)`. -/
def simplify (n d : Int) : Except Err (Int × Int) :=
  let n' := if d < 0 then -n else n
  let d' := if d < 0 then -d else d
  let g := jsGcd n' d'
  if g = 0 then Except.error Err.divisionByZero
  else Except.ok (Int.tdiv n' g, Int.tdiv d' g)

/-- `addFrac([n1,d1],[n2,d2])` from `index.js`. -/
def addFrac (f1 f2 : Int × Int) : Except Err (Int × Int) :=
  simplify (f1.1 * f2.2 + f2.1 * f1.2) (f1.2 * f2.2)

/-- `mulFrac([n1,d1],[n2,d2])` from `index.js`. -/
def mulFrac (f1 f2 : Int × Int) : Except Err (Int × Int) :=
  simplify (f1.1 * f2.1) (f1.2 * f2.2)

/-- The inner `j`-loop of `lagrangeAtZero` for index `i`: accumulate
`num *= (0 - x_j)` and `den *= (x_i - x_j)` over all `j ≠ i`. -/
def lagNumDen (points : List Point) (i : Nat) : Int × Int :=
  let xi := (points.getD i ⟨0, 0⟩).x
  (List.range points.length).foldl
    (fun nd j =>
      if i ≠ j then
        (nd.1 * (0 - (points.getD j ⟨0, 0⟩).x),
         nd.2 * (xi - (points.getD j ⟨0, 0⟩).x))
      else nd)
    ((1 : Int), (1 : Int))

/-- One iteration of the outer `i`-loop of `lagrangeAtZero`:
`result = addFrac(result, mulFrac([y_i, 1], simplify(num, den)))`,
with any thrown exception propagating. -/
def lagStep (points : List Point) (acc : Int × Int) (i : Nat) :
    Except Err (Int × Int) :=
  let yi := (points.getD i ⟨0, 0⟩).y
  let nd := lagNumDen points i
  jsBind (simplify nd.1 nd.2) (fun t =>
    jsBind (mulFrac (yi, 1) t) (fun t2 => addFrac acc t2))

/-- `lagrangeAtZero(points)` from `index.js`: fold the per-point terms
into a running fraction starting from `[0n, 1n]`, then return
`result[0] / result[1]` — `BigInt` division, which truncates toward
zero (`Int.tdiv`) and throws a RangeError when the denominator is
zero. -/
def lagrangeAtZero (points : List Point) : Except Err Int :=
  jsBind
    ((List.range points.length).foldlM (lagStep points)
      ((0 : Int), (1 : Int)))
    (fun r =>
      if r.2 = 0 then Except.error Err.divisionByZero
      else Except.ok (Int.tdiv r.1 r.2))

/-- `combinations(arr, r)` from `index.js`: `r === 0` gives the single
empty subset, a too-short array gives no subsets, otherwise the subsets
containing the first element come first, followed by those without it. -/
def combinations {α : Type} : List α → Nat → List (List α)
  | _, 0 => [[]]
  | [], _ + 1 => []
  | a :: rest, r + 1 =>
    if (a :: rest).length < r + 1 then []
    else (combinations rest r).map (fun c => a :: c) ++ combinations rest (r + 1)

/-- The record `{secret, count, total}` returned by `findSecret`
(the spec's `RecoveryResult` with `supportingCombinations = count`
and `totalCombinations = total`). -/
structure RecoveryResult where
  secret : Int
  count : Nat
  total : Nat
deriving DecidableEq

/-- `freq.set(secret, (freq.get(secret) || 0) + 1)` on a JavaScript
`Map`: an existing key keeps its position, a new key is appended.  The
`Map` is modelled as an association list in insertion order; the
JavaScript keys are the decimal strings of the secrets, and string
conversion of `BigInt` is injective, so `Int` keys are faithful. -/
def bumpFreq (freq : List (Int × Nat)) (s : Int) : List (Int × Nat) :=
  match freq with
  | [] => [(s, 1)]
  | (k, c) :: rest =>
    if k = s then (k, c + 1) :: rest else (k, c) :: bumpFreq rest s

/-- The selection loop of `findSecret`: starting from
`best = null, bestCount = 0`, replace the candidate whenever
`count > bestCount` (strict), scanning the tally in insertion order. -/
def pbStep (best : Option Int × Nat) (e : Int × Nat) : Option Int × Nat :=
  if e.2 > best.2 then (some e.1, e.2) else best

/-- See `pbStep` for the loop body. -/
def pickBest (freq : List (Int × Nat)) : Option Int × Nat :=
  freq.foldl pbStep (none, 0)

/-- `findSecret(points, k)` from `index.js`: interpolate every
combination, tally the results, and return the most frequent one.  When
no combination exists (`n < k` with `k > 0`) the tally is empty, `best`
stays `null`, and `BigInt(null)` throws a TypeError — the spec's
`insufficientShares` failure mode (sections 7 and 9), reachable exactly
in that situation. -/
def tallyStep (freq : List (Int × Nat)) (combo : List Point) :
    Except Err (List (Int × Nat)) :=
  jsBind (lagrangeAtZero combo) (fun s => Except.ok (bumpFreq freq s))

/-- See `tallyStep` for the loop body. -/
def findSecret (points : List Point) (k : Nat) : Except Err RecoveryResult :=
  let allCombos := combinations points k
  jsBind (allCombos.foldlM tallyStep ([] : List (Int × Nat))) (fun freq =>
    match pickBest freq with
    | (none, _) => Except.error Err.insufficientShares
    | (some b, c) => Except.ok ⟨b, c, allCombos.length⟩)

/-- The Java `Fraction` record from the companion file: `{num, den}`
over `BigInteger`. -/
structure Fraction where
  num : Int
  den : Int
deriving DecidableEq

/-- The Java `Fraction` constructor: throws on a zero denominator,
moves the sign to the numerator, and reduces by
`gcd = n.gcd(d)` (Java's `BigInteger.gcd` is the gcd of the absolute
values, and here `g > 0`, so the exact divisions are `Int.tdiv`). -/
def Fraction.make (n d : Int) : Except Err Fraction :=
  if d = 0 then Except.error Err.divisionByZero
  else
    let n' := if d < 0 then -n else n
    let d' := if d < 0 then -d else d
    let g := jsGcd n' d'
    Except.ok ⟨Int.tdiv n' g, Int.tdiv d' g⟩

/-- Java `Fraction.add`. -/
def Fraction.add (a b : Fraction) : Except Err Fraction :=
  Fraction.make (a.num * b.den + b.num * a.den) (a.den * b.den)

/-- Java `Fraction.multiply`. -/
def Fraction.multiply (a b : Fraction) : Except Err Fraction :=
  Fraction.make (a.num * b.num) (a.den * b.den)

/-- Java `Fraction.subtract`: `add(new Fraction(f.num.negate(), f.den))`
— note the negated operand passes through the constructor first. -/
def Fraction.subtract (a b : Fraction) : Except Err Fraction :=
  match Fraction.make (-b.num) b.den with
  | Except.error e => Except.error e
  | Except.ok nb => a.add nb

/-- Java `Fraction.divide`: `new Fraction(num * f.den, den * f.num)`,
so dividing by a zero fraction throws in the constructor. -/
def Fraction.divide (a b : Fraction) : Except Err Fraction :=
  Fraction.make (a.num * b.den) (a.den * b.num)

/-- Canonical form: positive denominator and coprime components
(spec section 3, the `Fraction` invariant). -/
def Fraction.canonical (f : Fraction) : Prop :=
  0 < f.den ∧ Int.gcd f.num f.den = 1

/-! ### Exact rational semantics

`tprod`, `lsum` and `lagQ` give the exact value in `ℚ` that the
fraction pipeline of `lagrangeAtZero` computes: `lagQ points` is the
Lagrange sum `Σ_i y_i · Π_{j ≠ i} (0 - x_j) / (x_i - x_j)`, expressed
structurally (the weight accumulates the factors a head point
contributes to every later term). -/

/-- The exact Lagrange basis factor `(0 - x_q) / (x_p - x_q)` that the
point `q` contributes to the term of the point `p`. -/
def basisQ (p q : Point) : ℚ :=
  (-(q.x : ℚ)) / ((p.x : ℚ) - (q.x : ℚ))

/-- `Π_{q ∈ l} (0 - x_q) / (x_p - x_q)` as an exact rational. -/
def tprod (p : Point) (l : List Point) : ℚ := (l.map (basisQ p)).prod

/-- Weighted Lagrange sum: the head contributes `w p · Π over the tail`,
and every tail point picks up the head's basis factor in its weight. -/
def lsum (w : Point → ℚ) : List Point → ℚ
  | [] => 0
  | p :: l => w p * tprod p l + lsum (fun q => w q * basisQ q p) l

/-- The exact rational value of the Lagrange interpolation at zero. -/
def lagQ (points : List Point) : ℚ := lsum (fun p => (p.y : ℚ)) points

/-- Index-level basis factor: the factor index `j` contributes to the
term of index `i` (`1` when `j = i`, mirroring the skipped iteration). -/
def hQ (points : List Point) (i j : Nat) : ℚ :=
  if i = j then 1
  else basisQ (points.getD i ⟨0, 0⟩) (points.getD j ⟨0, 0⟩)

/-- Index-level term of index `i` with weight `w`. -/
def termQ (points : List Point) (w : Point → ℚ) (i : Nat) : ℚ :=
  w (points.getD i ⟨0, 0⟩) * ((List.range points.length).map (hQ points i)).prod

/-- Index-level weighted Lagrange sum, following the loop structure of
the code. -/
def iS (points : List Point) (w : Point → ℚ) : ℚ :=
  ((List.range points.length).map (termQ points w)).sum

/-- The tally built by `findSecret` over a value sequence, in insertion
order. -/
def tallyOf (vals : List Int) : List (Int × Nat) := vals.foldl bumpFreq []

/-- The largest count appearing in a tally. -/
def maxCount : List (Int × Nat) → Nat
  | [] => 0
  | e :: rest => Nat.max e.2 (maxCount rest)

/-- The interpolation results of all size-`k` combinations, in
enumeration order (discarding failed ones). -/
def comboVals (points : List Point) (k : Nat) : List Int :=
  (combinations points k).filterMap (fun c => (lagrangeAtZero c).toOption)

/-- Well-formedness of a digit for `decodeValue`: the (lowercased)
character has a digit value below the base. -/
def goodDigit (base : Nat) (c : Char) : Bool :=
  match jsDigitValue c.toLower with
  | some v => v < base
  | none => false

/-! ### Subset enumeration -/

theorem combinations_zero {α : Type} (l : List α) : combinations l 0 = [[]] := by
  cases l <;> rfl

theorem combinations_nil_of_lt {α : Type} :
    ∀ (l : List α) (k : Nat), l.length < k → combinations l k = []
  | _, 0, h => absurd h (Nat.not_lt_zero _)
  | [], _ + 1, _ => rfl
  | a :: rest, k + 1, h => by
    rw [combinations]
    simp only [if_pos h]

theorem combinations_length {α : Type} :
    ∀ (l : List α) (k : Nat), (combinations l k).length = Nat.choose l.length k
  | _, 0 => by simp [combinations]
  | [], k + 1 => by simp [combinations]
  | a :: rest, k + 1 => by
    by_cases h : (a :: rest).length < k + 1
    · rw [combinations_nil_of_lt _ _ h, Nat.choose_eq_zero_of_lt h]
      rfl
    · rw [combinations]
      simp only [if_neg h, List.length_append, List.length_map,
        combinations_length rest k, combinations_length rest (k + 1)]
      simp [Nat.choose_succ_succ]

theorem combinations_mem_length {α : Type} :
    ∀ (l : List α) (k : Nat) (c : List α), c ∈ combinations l k → c.length = k
  | _, 0, c, h => by
    simp [combinations] at h
    simp [h]
  | [], _ + 1, c, h => by simp [combinations] at h
  | a :: rest, k + 1, c, h => by
    by_cases hl : (a :: rest).length < k + 1
    · rw [combinations_nil_of_lt _ _ hl] at h
      simp at h
    · rw [combinations] at h
      simp only [if_neg hl, List.mem_append, List.mem_map] at h
      rcases h with ⟨c', hc', rfl⟩ | h
      · simp [combinations_mem_length rest k c' hc']
      · exact combinations_mem_length rest (k + 1) c h

theorem combinations_sublist {α : Type} :
    ∀ (l : List α) (k : Nat) (c : List α), c ∈ combinations l k → c.Sublist l
  | l, 0, c, h => by
    simp [combinations] at h
    simp [h]
  | [], _ + 1, c, h => by simp [combinations] at h
  | a :: rest, k + 1, c, h => by
    by_cases hl : (a :: rest).length < k + 1
    · rw [combinations_nil_of_lt _ _ hl] at h
      simp at h
    · rw [combinations] at h
      simp only [if_neg hl, List.mem_append, List.mem_map] at h
      rcases h with ⟨c', hc', rfl⟩ | h
      · exact (combinations_sublist rest k c' hc').cons₂ a
      · exact (combinations_sublist rest (k + 1) c h).cons a

/-- C9: `combinations` produces exactly `C(n, k)` subsets, each of
length `k`, each a sublist of the input (so the original order of the
points is preserved), in the fixed deterministic order of the
recursion; `k = 0` yields exactly the one empty subset, and `k > n`
yields no subsets. -/
theorem combinations_spec (α : Type) (l : List α) (k : Nat) :
    (combinations l k).length = Nat.choose l.length k
    ∧ (∀ c ∈ combinations l k, c.length = k)
    ∧ (∀ c ∈ combinations l k, c.Sublist l)
    ∧ combinations l 0 = [[]]
    ∧ (l.length < k → combinations l k = []) :=
  ⟨combinations_length l k, fun c hc => combinations_mem_length l k c hc,
   fun c hc => combinations_sublist l k c hc, combinations_zero l,
   combinations_nil_of_lt l k⟩

theorem combinations_spec_witness :
    (combinations ([1, 2, 3] : List Int) 2).length = Nat.choose 3 2 :=
  (combinations_spec Int [1, 2, 3] 2).1

/-! ### The worked majority-vote example -/

/-- C1: on the three points of `f(x) = 2x + 3` plus the corrupted point
`(4, 99)` with threshold `2`, `findSecret` returns secret `3` supported
by `3` of the `6` combinations. -/
theorem findSecret_majority_example :
    findSecret [⟨1, 5⟩, ⟨2, 7⟩, ⟨3, 9⟩, ⟨4, 99⟩] 2 = Except.ok ⟨3, 3, 6⟩ := by
  decide

/-! ### Insufficient shares -/

/-- C5: with fewer points than the threshold there are no combinations,
the tally stays empty, `best` stays `null`, and the conversion
`BigInt(null)` aborts the call: the `insufficientShares` failure mode.
No `RecoveryResult` is returned. -/
theorem findSecret_insufficient (points : List Point) (k : Nat)
    (h : points.length < k) :
    findSecret points k = Except.error Err.insufficientShares := by
  rw [findSecret]
  rw [combinations_nil_of_lt points k h]
  rfl

theorem findSecret_insufficient_witness :
    findSecret [⟨1, 5⟩, ⟨2, 7⟩] 3 = Except.error Err.insufficientShares :=
  findSecret_insufficient [⟨1, 5⟩, ⟨2, 7⟩] 3 (by decide)


/-! ### Base decoding -/

theorem decode_fold (base : Nat) :
    ∀ (l : List Char) (acc : Int),
    (∀ c ∈ l, ∃ v, jsDigitValue c = some v ∧ v < base) →
    l.foldlM (decodeStep base) acc =
      Except.ok (l.foldl
        (fun r c => r * (base : Int) + (((jsDigitValue c).getD 0 : Nat) : Int))
        acc)
  | [], _, _ => rfl
  | c :: l, acc, h => by
    obtain ⟨v, hv, hlt⟩ := h c (List.mem_cons_self c l)
    have hstep : decodeStep base acc c =
        Except.ok (acc * (base : Int) + (v : Int)) := by
      simp [decodeStep, hv, hlt]
    rw [List.foldlM_cons, hstep]
    show l.foldlM (decodeStep base) (acc * (base : Int) + (v : Int)) = _
    rw [decode_fold base l _ (fun c' hc' => h c' (List.mem_cons_of_mem _ hc'))]
    rw [List.foldl_cons]
    simp [hv]

theorem decode_error_aux (base : Nat) :
    ∀ (l : List Char) (acc : Int),
    (l.foldlM (decodeStep base) acc = Except.error Err.invalidDigit
      ↔ ∃ c ∈ l, ¬ ∃ v, jsDigitValue c = some v ∧ v < base)
  | [], acc => by simp [List.foldlM, pure, Except.pure]
  | c :: l, acc => by
    rw [List.foldlM_cons]
    cases hv : jsDigitValue c with
    | none =>
      have hstep : decodeStep base acc c = Except.error Err.invalidDigit := by
        simp [decodeStep, hv]
      rw [hstep]
      constructor
      · intro _
        exact ⟨c, List.mem_cons_self c l, by simp [hv]⟩
      · intro _
        rfl
    | some v =>
      by_cases hlt : v < base
      · have hstep : decodeStep base acc c =
            Except.ok (acc * (base : Int) + (v : Int)) := by
          simp [decodeStep, hv, hlt]
        rw [hstep]
        show (l.foldlM (decodeStep base) _ = Except.error Err.invalidDigit) ↔ _
        rw [decode_error_aux base l _]
        constructor
        · rintro ⟨c', hc', hbad⟩
          exact ⟨c', List.mem_cons_of_mem _ hc', hbad⟩
        · rintro ⟨c', hc', hbad⟩
          rcases List.mem_cons.mp hc' with rfl | hc''
          · exact absurd ⟨v, hv, hlt⟩ hbad
          · exact ⟨c', hc'', hbad⟩
      · have hstep : decodeStep base acc c = Except.error Err.invalidDigit := by
          simp [decodeStep, hv, hlt]
        rw [hstep]
        constructor
        · intro _
          exact ⟨c, List.mem_cons_self c l, by
            rintro ⟨v', hv', hlt'⟩
            rw [hv] at hv'
            cases hv'
            exact hlt hlt'⟩
        · intro _
          rfl

theorem goodDigit_iff (base : Nat) (c : Char) :
    goodDigit base c = true ↔ ∃ v, jsDigitValue c.toLower = some v ∧ v < base := by
  unfold goodDigit
  cases hv : jsDigitValue c.toLower with
  | none => simp
  | some v => simp

/-- C7: for a base in `[2, 36]` and digits all defined and below the
base, `decodeValue` is the left-to-right positional fold
`r := r * base + digitValue(c)` starting from `0`; the empty string
decodes to `0`, `decode(2, "101") = 5` and `decode(16, "ff") = 255`. -/
theorem decode_positional (base : Nat) (s : String)
    (h2 : 2 ≤ base) (h36 : base ≤ 36)
    (hgood : ∀ c ∈ s.data, goodDigit base c = true) :
    decodeValue base s =
      Except.ok (s.data.foldl
        (fun r c =>
          r * (base : Int) + (((jsDigitValue c.toLower).getD 0 : Nat) : Int))
        0)
    ∧ decodeValue base "" = Except.ok 0
    ∧ decodeValue 2 "101" = Except.ok 5
    ∧ decodeValue 16 "ff" = Except.ok 255 := by
  refine ⟨?_, rfl, by decide, by decide⟩
  rw [decodeValue]
  rw [decode_fold base (s.data.map Char.toLower) 0 ?_]
  · rw [List.foldl_map]
  · intro c' hc'
    obtain ⟨c, hc, rfl⟩ := List.mem_map.mp hc'
    exact (goodDigit_iff base c).mp (hgood c hc)

theorem decode_positional_witness :
    decodeValue 16 "ff" =
      Except.ok (("ff".data).foldl
        (fun r c =>
          r * (16 : Int) + (((jsDigitValue c.toLower).getD 0 : Nat) : Int))
        0) :=
  (decode_positional 16 "ff" (by decide) (by decide) (by decide)).1

/-- C8: `decodeValue` fails — with the `invalidDigit` kind, from the
`BigInt(NaN)` conversion — exactly when some character of the input has
an undefined digit value or one at least the base; in particular
`decode(2, "2")` fails with `invalidDigit`. -/
theorem decode_invalid_iff (base : Nat) (s : String)
    (h2 : 2 ≤ base) (h36 : base ≤ 36) :
    (decodeValue base s = Except.error Err.invalidDigit
      ↔ ∃ c ∈ s.data, goodDigit base c = false)
    ∧ decodeValue 2 "2" = Except.error Err.invalidDigit := by
  refine ⟨?_, by decide⟩
  rw [decodeValue, decode_error_aux base (s.data.map Char.toLower) 0]
  constructor
  · rintro ⟨c', hc', hbad⟩
    obtain ⟨c, hc, rfl⟩ := List.mem_map.mp hc'
    refine ⟨c, hc, ?_⟩
    rw [Bool.eq_false_iff]
    intro hg
    exact hbad ((goodDigit_iff base c).mp hg)
  · rintro ⟨c, hc, hbad⟩
    refine ⟨c.toLower, List.mem_map.mpr ⟨c, hc, rfl⟩, ?_⟩
    intro hg
    rw [Bool.eq_false_iff] at hbad
    exact hbad ((goodDigit_iff base c).mpr hg)

theorem decode_invalid_iff_witness :
    decodeValue 2 "2" = Except.error Err.invalidDigit :=
  (decode_invalid_iff 2 "2" (by decide) (by decide)).2


/-! ### Canonical fractions and their exact values -/

theorem int_gcd_pos (n d : Int) (hd : d ≠ 0) : 0 < Int.gcd n d :=
  Nat.pos_of_ne_zero (fun h => hd (Int.gcd_eq_zero_iff.mp h).2)

theorem tdiv_gcd_pos (n d : Int) (hd : 0 < d) :
    0 < Int.tdiv d (jsGcd n d) := by
  have hg : (0 : Int) < (Int.gcd n d : Int) :=
    Int.natCast_pos.mpr (int_gcd_pos n d hd.ne')
  have hdvd : ((Int.gcd n d : Nat) : Int) ∣ d := Int.gcd_dvd_right
  rw [jsGcd, Int.tdiv_eq_ediv_of_dvd hdvd]
  have h1 : ((Int.gcd n d : Nat) : Int) * (d / (Int.gcd n d : Nat)) = d :=
    Int.mul_ediv_cancel' hdvd
  by_contra h
  push_neg at h
  nlinarith

theorem tdiv_gcd_coprime (n d : Int) (hd : 0 < d) :
    Int.gcd (Int.tdiv n (jsGcd n d)) (Int.tdiv d (jsGcd n d)) = 1 := by
  rw [jsGcd, Int.tdiv_eq_ediv_of_dvd Int.gcd_dvd_left,
    Int.tdiv_eq_ediv_of_dvd Int.gcd_dvd_right]
  exact Int.gcd_div_gcd_div_gcd (int_gcd_pos n d hd.ne')

theorem tdiv_gcd_val (n d : Int) (hd : 0 < d) :
    ((Int.tdiv n (jsGcd n d) : Int) : ℚ) / ((Int.tdiv d (jsGcd n d) : Int) : ℚ)
      = (n : ℚ) / (d : ℚ) := by
  have hgq : ((Int.gcd n d : Nat) : ℚ) ≠ 0 := by
    exact_mod_cast (int_gcd_pos n d hd.ne').ne'
  have hn : ((n / (Int.gcd n d : Nat) : Int) : ℚ) * ((Int.gcd n d : Nat) : ℚ)
      = (n : ℚ) := by
    exact_mod_cast congrArg (fun z : Int => (z : ℚ))
      (Int.ediv_mul_cancel (Int.gcd_dvd_left))
  have hd2 : ((d / (Int.gcd n d : Nat) : Int) : ℚ) * ((Int.gcd n d : Nat) : ℚ)
      = (d : ℚ) := by
    exact_mod_cast congrArg (fun z : Int => (z : ℚ))
      (Int.ediv_mul_cancel (Int.gcd_dvd_right))
  rw [jsGcd, Int.tdiv_eq_ediv_of_dvd Int.gcd_dvd_left,
    Int.tdiv_eq_ediv_of_dvd Int.gcd_dvd_right, ← hn, ← hd2,
    mul_div_mul_right _ _ hgq]

theorem rat_gcd_one (q : ℚ) : Int.gcd q.num (q.den : Int) = 1 := by
  have h := q.reduced
  simpa [Int.gcd, Int.natAbs_ofNat] using h

theorem rat_num_den_eq (a b : Int) (hb : 0 < b) (hg : Int.gcd a b = 1)
    (q : ℚ) (hq : (a : ℚ) / (b : ℚ) = q) : q.num = a ∧ (q.den : Int) = b := by
  have hbq : (b : ℚ) ≠ 0 := by exact_mod_cast hb.ne'
  have hdq : ((q.den : Int) : ℚ) ≠ 0 := by exact_mod_cast q.den_nz
  have hcross : (a : ℚ) * ((q.den : Int) : ℚ) = (q.num : ℚ) * (b : ℚ) := by
    have h1 : (a : ℚ) / (b : ℚ) = (q.num : ℚ) / ((q.den : Int) : ℚ) := by
      rw [hq]
      exact_mod_cast (Rat.num_div_den q).symm
    exact (div_eq_div_iff hbq hdq).mp h1
  have hcross' : a * (q.den : Int) = q.num * b := by exact_mod_cast hcross
  have hco_ab : IsCoprime a b := Int.isCoprime_iff_gcd_eq_one.mpr hg
  have hco_q : IsCoprime q.num (q.den : Int) :=
    Int.isCoprime_iff_gcd_eq_one.mpr (rat_gcd_one q)
  have hb_dvd : b ∣ (q.den : Int) := by
    have h2 : b ∣ a * (q.den : Int) := ⟨q.num, by rw [hcross']; ring⟩
    exact hco_ab.symm.dvd_of_dvd_mul_left h2
  have hd_dvd : (q.den : Int) ∣ b := by
    have h2 : (q.den : Int) ∣ q.num * b := ⟨a, by rw [← hcross']; ring⟩
    exact hco_q.symm.dvd_of_dvd_mul_left h2
  have hden : (q.den : Int) = b :=
    Int.dvd_antisymm (by positivity) hb.le hd_dvd hb_dvd
  refine ⟨?_, hden⟩
  rw [hden] at hcross'
  exact (mul_right_cancel₀ (by exact_mod_cast hb.ne') hcross').symm

theorem simplify_eq (n d : Int) (hd : d ≠ 0) :
    simplify n d =
      Except.ok ((((n : ℚ) / (d : ℚ)).num),
        ((((n : ℚ) / (d : ℚ)).den : Nat) : Int)) := by
  have main : ∀ (a b : Int), 0 < b → (a : ℚ) / (b : ℚ) = (n : ℚ) / (d : ℚ) →
      (if jsGcd a b = 0 then
        (Except.error Err.divisionByZero : Except Err (Int × Int))
       else Except.ok (Int.tdiv a (jsGcd a b), Int.tdiv b (jsGcd a b)))
        = Except.ok ((((n : ℚ) / (d : ℚ)).num),
            ((((n : ℚ) / (d : ℚ)).den : Nat) : Int)) := by
    intro a b hb hval
    have hg : jsGcd a b ≠ 0 := by
      rw [jsGcd]
      exact_mod_cast (int_gcd_pos a b hb.ne').ne'
    rw [if_neg hg]
    obtain ⟨ha, hbden⟩ := rat_num_den_eq _ _ (tdiv_gcd_pos a b hb)
      (tdiv_gcd_coprime a b hb) _ ((tdiv_gcd_val a b hb).trans hval)
    rw [ha, hbden]
  simp only [simplify]
  by_cases hneg : d < 0
  · simp only [if_pos hneg]
    exact main (-n) (-d) (by omega) (by push_cast; rw [neg_div_neg_eq])
  · simp only [if_neg hneg]
    exact main n d (by omega) rfl

theorem simplify_ok_canonical (n d : Int) (p : Int × Int) (hd : d ≠ 0)
    (h : simplify n d = Except.ok p) : 0 < p.2 ∧ Int.gcd p.1 p.2 = 1 := by
  rw [simplify_eq n d hd] at h
  cases Except.ok.inj h
  constructor
  · show (0 : Int) < ((((n : ℚ) / (d : ℚ)).den : Nat) : Int)
    exact_mod_cast Rat.den_pos _
  · show Int.gcd (((n : ℚ) / (d : ℚ)).num) ((((n : ℚ) / (d : ℚ)).den : Nat) : Int) = 1
    exact rat_gcd_one _

theorem make_ok_canonical (n d : Int) (f : Fraction)
    (h : Fraction.make n d = Except.ok f) : 0 < f.den ∧ Int.gcd f.num f.den = 1 := by
  rw [Fraction.make] at h
  by_cases hd : d = 0
  · rw [if_pos hd] at h
    cases h
  · rw [if_neg hd] at h
    simp only [] at h
    by_cases hneg : d < 0
    · simp only [if_pos hneg] at h
      cases Except.ok.inj h
      exact ⟨tdiv_gcd_pos (-n) (-d) (by omega), tdiv_gcd_coprime (-n) (-d) (by omega)⟩
    · simp only [if_neg hneg] at h
      cases Except.ok.inj h
      exact ⟨tdiv_gcd_pos n d (by omega), tdiv_gcd_coprime n d (by omega)⟩

/-- C6: every `Fraction` produced by the Java constructor or by any of
its arithmetic operations is canonical — strictly positive denominator
and coprime numerator and denominator — and for the JavaScript
`simplify` the same holds whenever the incoming denominator is nonzero;
the three construction examples reduce as the spec states. -/
theorem fraction_canonical_spec :
    (∀ (n d : Int) (f : Fraction), Fraction.make n d = Except.ok f →
      0 < f.den ∧ Int.gcd f.num f.den = 1)
    ∧ (∀ (a b f : Fraction), a.add b = Except.ok f →
      0 < f.den ∧ Int.gcd f.num f.den = 1)
    ∧ (∀ (a b f : Fraction), a.multiply b = Except.ok f →
      0 < f.den ∧ Int.gcd f.num f.den = 1)
    ∧ (∀ (a b f : Fraction), a.subtract b = Except.ok f →
      0 < f.den ∧ Int.gcd f.num f.den = 1)
    ∧ (∀ (a b f : Fraction), a.divide b = Except.ok f →
      0 < f.den ∧ Int.gcd f.num f.den = 1)
    ∧ (∀ (n d : Int) (p : Int × Int), d ≠ 0 → simplify n d = Except.ok p →
      0 < p.2 ∧ Int.gcd p.1 p.2 = 1)
    ∧ Fraction.make 4 8 = Except.ok ⟨1, 2⟩
    ∧ Fraction.make (-4) 8 = Except.ok ⟨-1, 2⟩
    ∧ Fraction.make 4 (-8) = Except.ok ⟨-1, 2⟩ := by
  refine ⟨make_ok_canonical, ?_, ?_, ?_, ?_,
    fun n d p hd h => simplify_ok_canonical n d p hd h,
    by decide, by decide, by decide⟩
  · intro a b f h
    unfold Fraction.add at h
    exact make_ok_canonical _ _ _ h
  · intro a b f h
    unfold Fraction.multiply at h
    exact make_ok_canonical _ _ _ h
  · intro a b f h
    unfold Fraction.subtract at h
    rcases hm : Fraction.make (-b.num) b.den with e | nb
    · rw [hm] at h
      cases h
    · rw [hm] at h
      unfold Fraction.add at h
      exact make_ok_canonical _ _ _ h
  · intro a b f h
    unfold Fraction.divide at h
    exact make_ok_canonical _ _ _ h

theorem fraction_canonical_spec_witness :
    0 < (⟨1, 2⟩ : Fraction).den
      ∧ Int.gcd (⟨1, 2⟩ : Fraction).num (⟨1, 2⟩ : Fraction).den = 1 :=
  fraction_canonical_spec.1 4 8 ⟨1, 2⟩ (by decide)


/-! ### The fraction pipeline computes exact rationals -/

theorem foldl_pair_prod (f g : Nat → Int) (i : Nat) :
    ∀ (l : List Nat) (ab : Int × Int),
    l.foldl
        (fun nd j => if i ≠ j then (nd.1 * f j, nd.2 * g j) else nd) ab
      = (ab.1 * (l.map (fun j => if i = j then 1 else f j)).prod,
         ab.2 * (l.map (fun j => if i = j then 1 else g j)).prod)
  | [], ab => by simp
  | j :: l, ab => by
    by_cases hij : i = j
    · rw [List.foldl_cons, if_neg (not_not_intro hij),
        foldl_pair_prod f g i l ab, List.map_cons, List.map_cons,
        List.prod_cons, List.prod_cons, if_pos hij, if_pos hij,
        one_mul, one_mul]
    · rw [List.foldl_cons, if_pos hij,
        foldl_pair_prod f g i l (ab.1 * f j, ab.2 * g j),
        List.map_cons, List.map_cons, List.prod_cons, List.prod_cons,
        if_neg hij, if_neg hij]
      rw [Prod.mk.injEq]
      constructor <;> ring

theorem lagNumDen_eq (points : List Point) (i : Nat) :
    lagNumDen points i =
      (((List.range points.length).map
          (fun j => if i = j then 1 else 0 - (points.getD j ⟨0, 0⟩).x)).prod,
       ((List.range points.length).map
          (fun j => if i = j then 1
            else (points.getD i ⟨0, 0⟩).x - (points.getD j ⟨0, 0⟩).x)).prod) := by
  simp only [lagNumDen]
  rw [foldl_pair_prod (fun j => 0 - (points.getD j ⟨0, 0⟩).x)
    (fun j => (points.getD i ⟨0, 0⟩).x - (points.getD j ⟨0, 0⟩).x) i
    (List.range points.length) (1, 1)]
  rw [Prod.mk.injEq]
  constructor <;> rw [one_mul]

theorem list_prod_div (f g : Nat → ℚ) :
    ∀ l : List Nat,
    ((l.map f).prod) / ((l.map g).prod) = (l.map (fun j => f j / g j)).prod
  | [] => by simp
  | j :: l => by
    rw [List.map_cons, List.map_cons, List.map_cons, List.prod_cons,
      List.prod_cons, List.prod_cons, ← list_prod_div f g l,
      div_mul_div_comm]

theorem ratio_eq (points : List Point) (i : Nat) :
    ((lagNumDen points i).1 : ℚ) / ((lagNumDen points i).2 : ℚ)
      = ((List.range points.length).map (hQ points i)).prod := by
  rw [lagNumDen_eq]
  show (((List.range points.length).map _).prod : Int) /
      ((((List.range points.length).map _).prod : Int) : ℚ) = _
  rw [Int.cast_list_prod, Int.cast_list_prod, List.map_map, List.map_map,
    list_prod_div]
  refine congrArg List.prod (List.map_congr_left ?_)
  intro j _
  simp only [Function.comp]
  by_cases hij : i = j
  · simp [hij, hQ]
  · simp only [if_neg hij, hQ, basisQ]
    push_cast
    ring

theorem mulFrac_pair (y : Int) (q : ℚ) :
    mulFrac (y, 1) (q.num, (q.den : Int)) =
      Except.ok (((y : ℚ) * q).num, ((((y : ℚ) * q).den : Nat) : Int)) := by
  unfold mulFrac
  have hden : (1 : Int) * (q.den : Int) ≠ 0 := by
    simp [q.den_nz]
  rw [simplify_eq _ _ hden]
  have hval : (((y * q.num : Int)) : ℚ) / (((1 * (q.den : Int)) : Int) : ℚ)
      = (y : ℚ) * q := by
    push_cast
    rw [one_mul, mul_div_assoc, Rat.num_div_den]
  rw [hval]

theorem addFrac_pair (p q : ℚ) :
    addFrac (p.num, (p.den : Int)) (q.num, (q.den : Int)) =
      Except.ok ((p + q).num, (((p + q).den : Nat) : Int)) := by
  unfold addFrac
  have hp : ((p.den : Nat) : ℚ) ≠ 0 := by exact_mod_cast p.den_nz
  have hq : ((q.den : Nat) : ℚ) ≠ 0 := by exact_mod_cast q.den_nz
  have hden : (p.den : Int) * (q.den : Int) ≠ 0 := by
    simp [p.den_nz, q.den_nz]
  rw [simplify_eq _ _ hden]
  have hval : (((p.num * (q.den : Int) + q.num * (p.den : Int) : Int)) : ℚ) /
      (((p.den : Int) * (q.den : Int) : Int) : ℚ) = p + q := by
    push_cast
    conv_rhs => rw [← Rat.num_div_den p, ← Rat.num_div_den q]
    rw [div_add_div _ _ hp hq]
    ring_nf
  rw [hval]

theorem jsBind_ok {α β : Type} (a : α) (k : α → Except Err β) :
    jsBind (Except.ok a) k = k a := rfl

theorem jsBind_err {α β : Type} (e : Err) (k : α → Except Err β) :
    jsBind (Except.error e) k = Except.error e := rfl

theorem except_bind_ok {α β : Type} (a : α) (k : α → Except Err β) :
    (Except.ok a : Except Err α) >>= k = k a := rfl

theorem except_pure_eq {α : Type} (a : α) :
    (pure a : Except Err α) = Except.ok a := rfl

theorem lagStep_ok (points : List Point) (i : Nat) (Q : ℚ)
    (hden : (lagNumDen points i).2 ≠ 0) :
    lagStep points (Q.num, (Q.den : Int)) i =
      Except.ok ((Q + termQ points (fun p => (p.y : ℚ)) i).num,
        (((Q + termQ points (fun p => (p.y : ℚ)) i).den : Nat) : Int)) := by
  simp only [lagStep]
  rw [simplify_eq _ _ hden, jsBind_ok, mulFrac_pair, jsBind_ok, addFrac_pair]
  have hterm : ((points.getD i ⟨0, 0⟩).y : ℚ) *
      (((lagNumDen points i).1 : ℚ) / ((lagNumDen points i).2 : ℚ))
      = termQ points (fun p => (p.y : ℚ)) i := by
    rw [ratio_eq, termQ]
  rw [hterm]

theorem lagFold_ok (points : List Point) :
    ∀ (idxs : List Nat) (Q : ℚ),
    (∀ i ∈ idxs, (lagNumDen points i).2 ≠ 0) →
    idxs.foldlM (lagStep points) (Q.num, (Q.den : Int)) =
      Except.ok
        ((Q + (idxs.map (termQ points (fun p => (p.y : ℚ)))).sum).num,
         (((Q + (idxs.map (termQ points (fun p => (p.y : ℚ)))).sum).den :
            Nat) : Int))
  | [], Q, _ => by
    rw [List.foldlM_nil, except_pure_eq]
    simp
  | i :: idxs, Q, h => by
    rw [List.foldlM_cons,
      lagStep_ok points i Q (h i (List.mem_cons_self i idxs)),
      except_bind_ok,
      lagFold_ok points idxs (Q + termQ points (fun p => (p.y : ℚ)) i)
        (fun j hj => h j (List.mem_cons_of_mem _ hj))]
    rw [List.map_cons, List.sum_cons, add_assoc]

theorem lagrange_eval_aux (points : List Point)
    (h : ∀ i ∈ List.range points.length, (lagNumDen points i).2 ≠ 0) :
    lagrangeAtZero points =
      Except.ok (Int.tdiv (iS points (fun p => (p.y : ℚ))).num
        ((iS points (fun p => (p.y : ℚ))).den : Int)) := by
  unfold lagrangeAtZero
  have h0 : ((0 : Int), (1 : Int)) =
      (((0 : ℚ).num), (((0 : ℚ).den : Nat) : Int)) := by simp
  rw [h0, lagFold_ok points (List.range points.length) 0 h, jsBind_ok]
  have hiS : (0 : ℚ) +
      ((List.range points.length).map (termQ points (fun p => (p.y : ℚ)))).sum
      = iS points (fun p => (p.y : ℚ)) := by
    rw [zero_add, iS]
  rw [hiS]
  have hne : (((iS points (fun p => (p.y : ℚ))).den : Nat) : Int) ≠ 0 := by
    exact_mod_cast (iS points (fun p => (p.y : ℚ))).den_nz
  rw [if_neg hne]

/-! ### Bridging the indexed sum to the structural sum -/

theorem map_getD_range {β : Type} (f : Point → β) :
    ∀ l : List Point,
    (List.range l.length).map (fun j => f (l.getD j ⟨0, 0⟩)) = l.map f
  | [] => rfl
  | a :: t => by
    rw [List.length_cons, List.range_succ_eq_map, List.map_cons,
      List.map_cons, List.map_map]
    congr 1
    rw [← map_getD_range f t]
    refine List.map_congr_left ?_
    intro j _
    simp [Function.comp, List.getD_cons_succ]

theorem iS_eq_lsum : ∀ (points : List Point) (w : Point → ℚ),
    iS points w = lsum w points
  | [], _ => rfl
  | a :: t, w => by
    have hhead : termQ (a :: t) w 0 = w a * tprod a t := by
      rw [termQ]
      congr 1
      rw [List.length_cons, List.range_succ_eq_map, List.map_cons,
        List.prod_cons, List.map_map]
      have h00 : hQ (a :: t) 0 0 = 1 := by simp [hQ]
      rw [h00, one_mul, tprod, ← map_getD_range (basisQ a) t]
      refine congrArg List.prod (List.map_congr_left ?_)
      intro j _
      simp [Function.comp, hQ, List.getD_cons_succ]
    have htail : ∀ i, termQ (a :: t) w (i + 1) =
        termQ t (fun q => w q * basisQ q a) i := by
      intro i
      rw [termQ, termQ]
      rw [List.length_cons, List.range_succ_eq_map, List.map_cons,
        List.prod_cons, List.map_map]
      have h0 : hQ (a :: t) (i + 1) 0 = basisQ (t.getD i ⟨0, 0⟩) a := by
        simp [hQ, List.getD_cons_succ]
      rw [h0]
      have hrest : (List.range t.length).map ((hQ (a :: t) (i + 1)) ∘ Nat.succ)
          = (List.range t.length).map (hQ t i) := by
        refine List.map_congr_left ?_
        intro j _
        simp only [Function.comp]
        by_cases hij : i = j
        · simp [hQ, hij]
        · have hij' : ¬ (i + 1 = j + 1) := by omega
          simp [hQ, hij, hij', List.getD_cons_succ]
      rw [hrest, List.getD_cons_succ]
      ring
    rw [iS, List.length_cons, List.range_succ_eq_map, List.map_cons,
      List.sum_cons, List.map_map, hhead]
    have htail' : (List.range t.length).map ((termQ (a :: t) w) ∘ Nat.succ)
        = (List.range t.length).map (termQ t (fun q => w q * basisQ q a)) := by
      refine List.map_congr_left ?_
      intro i _
      simp only [Function.comp]
      exact htail i
    rw [htail']
    have hIH : ((List.range t.length).map
        (termQ t (fun q => w q * basisQ q a))).sum
        = lsum (fun q => w q * basisQ q a) t := by
      rw [← iS_eq_lsum t (fun q => w q * basisQ q a), iS]
    rw [hIH]
    conv_rhs => rw [lsum]

/-! ### Distinct abscissas give nonzero denominators -/

theorem lagDen_ne_zero (points : List Point)
    (hx : points.Pairwise (fun p q => p.x ≠ q.x)) :
    ∀ i ∈ List.range points.length, (lagNumDen points i).2 ≠ 0 := by
  intro i hi
  rw [List.mem_range] at hi
  rw [lagNumDen_eq]
  apply List.prod_ne_zero
  intro hmem
  obtain ⟨j, hj, hval⟩ := List.mem_map.mp hmem
  rw [List.mem_range] at hj
  by_cases hij : i = j
  · rw [if_pos hij] at hval
    exact absurd hval (by decide)
  · rw [if_neg hij] at hval
    have hxeq : (points.getD i ⟨0, 0⟩).x = (points.getD j ⟨0, 0⟩).x := by
      omega
    rw [List.pairwise_iff_getElem] at hx
    rw [List.getD_eq_getElem points ⟨0, 0⟩ hi,
      List.getD_eq_getElem points ⟨0, 0⟩ hj] at hxeq
    rcases Nat.lt_or_ge i j with hlt | hge
    · exact hx i j hi hj hlt hxeq
    · have hlt : j < i := by omega
      exact hx j i hj hi hlt hxeq.symm

/-- With pairwise-distinct abscissas, `lagrangeAtZero` succeeds and
returns the toward-zero truncation of the exact reduced Lagrange value
`lagQ points` (numerator `tdiv` denominator). -/
theorem lagrange_eval (points : List Point)
    (hx : points.Pairwise (fun p q => p.x ≠ q.x)) :
    lagrangeAtZero points =
      Except.ok (Int.tdiv (lagQ points).num ((lagQ points).den : Int)) := by
  rw [lagrange_eval_aux points (lagDen_ne_zero points hx)]
  rw [show iS points (fun p => (p.y : ℚ)) = lagQ points from
    iS_eq_lsum points (fun p => (p.y : ℚ))]

/-! ### Permutation invariance of the exact value -/

theorem lsum_congr : ∀ (l : List Point) (w w' : Point → ℚ),
    (∀ p, w p = w' p) → lsum w l = lsum w' l
  | [], _, _, _ => rfl
  | p :: l, w, w', h => by
    simp only [lsum]
    rw [h p]
    congr 1
    exact lsum_congr l _ _ (fun q => by rw [h q])

theorem tprod_perm (p : Point) {l l' : List Point} (h : l.Perm l') :
    tprod p l = tprod p l' :=
  (h.map (basisQ p)).prod_eq

theorem lsum_perm {l l' : List Point} (h : l.Perm l') :
    ∀ w : Point → ℚ, lsum w l = lsum w l' := by
  induction h with
  | nil =>
    intro w
    rfl
  | cons x htail ih =>
    intro w
    simp only [lsum]
    rw [tprod_perm x htail, ih]
  | swap x y t =>
    intro w
    simp only [lsum]
    rw [lsum_congr t (fun q => w q * basisQ q y * basisQ q x)
      (fun q => w q * basisQ q x * basisQ q y) (fun p => by ring)]
    simp only [tprod, List.map_cons, List.prod_cons]
    ring
  | trans _ _ ih1 ih2 =>
    intro w
    exact (ih1 w).trans (ih2 w)

/-- C2: for any two orderings of a point list with pairwise-distinct
`x` values, `lagrangeAtZero` returns one and the same integer: the
running fraction is at every step the canonical form of the exact
partial sum, the exact total is order-independent, and the canonical
form and the final division are determined by it. -/
theorem evaluateAtZero_order_invariant (l l' : List Point) (hp : l.Perm l')
    (hx : l.Pairwise (fun p q => p.x ≠ q.x)) :
    ∃ v : Int, lagrangeAtZero l = Except.ok v
      ∧ lagrangeAtZero l' = Except.ok v := by
  have hx' : l'.Pairwise (fun p q => p.x ≠ q.x) :=
    (List.Perm.pairwise_iff (fun hxy => Ne.symm hxy) hp).mp hx
  have h1 := lagrange_eval l hx
  have h2 := lagrange_eval l' hx'
  have heq : lagQ l' = lagQ l := by
    rw [lagQ, lagQ, lsum_perm hp]
  refine ⟨_, h1, ?_⟩
  rw [h2, heq]

theorem evaluateAtZero_order_invariant_witness :
    ∃ v : Int, lagrangeAtZero [⟨1, 5⟩, ⟨2, 7⟩] = Except.ok v
      ∧ lagrangeAtZero [⟨2, 7⟩, ⟨1, 5⟩] = Except.ok v :=
  evaluateAtZero_order_invariant [⟨1, 5⟩, ⟨2, 7⟩] [⟨2, 7⟩, ⟨1, 5⟩]
    (List.Perm.swap (⟨2, 7⟩ : Point) ⟨1, 5⟩ []) (by decide)

/-- C4 counterexample: on `(1,0), (3,1)` the exact Lagrange value at
zero is `-1/2`, not an integer, yet the code silently returns the
truncated integer `0` instead of reporting a `nonIntegerResult`
error. -/
theorem nonIntegerResult_cex :
    (∀ z : Int, lagQ [⟨1, 0⟩, ⟨3, 1⟩] ≠ (z : ℚ))
    ∧ lagrangeAtZero [⟨1, 0⟩, ⟨3, 1⟩] = Except.ok 0 := by
  have h2 : lagQ [⟨1, 0⟩, ⟨3, 1⟩] = -(1 / 2 : ℚ) := by
    norm_num [lagQ, lsum, tprod, basisQ]
  constructor
  · intro z hz
    rw [h2] at hz
    have hq : ((2 * z : Int) : ℚ) = ((-1 : Int) : ℚ) := by
      push_cast
      rw [← hz]
      ring
    have hint : (2 * z : Int) = -1 := by exact_mod_cast hq
    omega
  · decide

/-- C4 amended: for any input with pairwise-distinct abscissas — in
particular whenever the exact sum is a non-integer — the code reports
no `nonIntegerResult`; it returns the `BigInt` division (truncation
toward zero) of the exact reduced fraction's numerator by its
denominator. -/
theorem lagrange_truncates (points : List Point)
    (hx : points.Pairwise (fun p q => p.x ≠ q.x)) :
    lagrangeAtZero points =
      Except.ok (Int.tdiv (lagQ points).num ((lagQ points).den : Int)) :=
  lagrange_eval points hx

theorem lagrange_truncates_witness :
    lagrangeAtZero [⟨1, 0⟩, ⟨3, 1⟩] =
      Except.ok (Int.tdiv (lagQ [⟨1, 0⟩, ⟨3, 1⟩]).num
        ((lagQ [⟨1, 0⟩, ⟨3, 1⟩]).den : Int)) :=
  lagrange_truncates [⟨1, 0⟩, ⟨3, 1⟩] (by decide)

/-! ### Duplicate abscissas always abort the interpolation -/

theorem simplify_zden (n : Int) :
    (n = 0 ∧ simplify n 0 = Except.error Err.divisionByZero)
    ∨ (n ≠ 0 ∧ ∃ s, simplify n 0 = Except.ok (s, 0) ∧ s ≠ 0) := by
  by_cases hn : n = 0
  · exact Or.inl ⟨hn, by rw [hn]; decide⟩
  · refine Or.inr ⟨hn, Int.tdiv n ((n.natAbs : Nat) : Int), ?_, ?_⟩
    · simp only [simplify, jsGcd]
      rw [if_neg (lt_irrefl (0 : Int)), if_neg (lt_irrefl (0 : Int)),
        Int.gcd_zero_right,
        if_neg (show ¬ (((n.natAbs : Nat) : Int) = 0) from
          fun h => hn (by omega)),
        Int.zero_tdiv]
    · rcases lt_trichotomy n 0 with hlt | heq | hgt
      · have hab : ((n.natAbs : Nat) : Int) = -n := by omega
        rw [hab, Int.tdiv_neg, Int.tdiv_self hn]
        decide
      · exact absurd heq hn
      · have hab : ((n.natAbs : Nat) : Int) = n := by omega
        rw [hab, Int.tdiv_self hn]
        decide

theorem mulFrac_z (y s : Int) :
    mulFrac (y, 1) (s, 0) = simplify (y * s) 0 := by
  show simplify (y * s) ((1 : Int) * 0) = simplify (y * s) 0
  rw [one_mul]

theorem addFrac_def (a d n2 d2 : Int) :
    addFrac (a, d) (n2, d2) = simplify (a * d2 + n2 * d) (d * d2) := rfl

theorem lagStep_cases (points : List Point) (i : Nat) (a d : Int)
    (hacc : 0 < d ∨ (d = 0 ∧ a ≠ 0)) :
    lagStep points (a, d) i = Except.error Err.divisionByZero
    ∨ ∃ r e, lagStep points (a, d) i = Except.ok (r, e)
        ∧ (0 < e ∨ (e = 0 ∧ r ≠ 0))
        ∧ (d = 0 → e = 0)
        ∧ ((lagNumDen points i).2 = 0 → e = 0) := by
  simp only [lagStep]
  by_cases hden : (lagNumDen points i).2 = 0
  · rw [hden]
    rcases simplify_zden (lagNumDen points i).1 with ⟨_, hsz⟩ | ⟨_, s, hsz, hs⟩
    · rw [hsz, jsBind_err]
      exact Or.inl rfl
    · rw [hsz, jsBind_ok, mulFrac_z]
      rcases simplify_zden ((points.getD i ⟨0, 0⟩).y * s) with
        ⟨_, hsz2⟩ | ⟨_, s2, hsz2, hs2⟩
      · rw [hsz2, jsBind_err]
        exact Or.inl rfl
      · rw [hsz2, jsBind_ok, addFrac_def]
        rw [show a * (0 : Int) + s2 * d = s2 * d from by ring,
          show d * (0 : Int) = 0 from by ring]
        rcases hacc with hd | ⟨hd, _⟩
        · rcases simplify_zden (s2 * d) with ⟨h0, _⟩ | ⟨_, s3, hsz3, hs3⟩
          · exact absurd h0 (mul_ne_zero hs2 (by omega))
          · rw [hsz3]
            exact Or.inr ⟨s3, 0, rfl, Or.inr ⟨rfl, hs3⟩,
              fun _ => rfl, fun _ => rfl⟩
        · rw [hd]
          rcases simplify_zden (s2 * 0) with ⟨_, hsz3⟩ | ⟨hne, _⟩
          · rw [hsz3]
            exact Or.inl rfl
          · exact absurd (mul_zero s2) hne
  · rw [simplify_eq _ _ hden, jsBind_ok, mulFrac_pair, jsBind_ok, addFrac_def]
    rcases hacc with hd | ⟨hd, ha⟩
    · have hdd : d * ((((points.getD i ⟨0, 0⟩).y : ℚ) *
          (((lagNumDen points i).1 : ℚ) / ((lagNumDen points i).2 : ℚ))).den
            : Int) ≠ 0 := by
        have h1 : (0 : Int) < ((((points.getD i ⟨0, 0⟩).y : ℚ) *
            (((lagNumDen points i).1 : ℚ) /
              ((lagNumDen points i).2 : ℚ))).den : Int) := by
          exact_mod_cast Rat.den_pos _
        exact mul_ne_zero (by omega) (by omega)
      rw [simplify_eq _ _ hdd]
      refine Or.inr ⟨_, _, rfl, Or.inl ?_, fun h0 => absurd h0 (by omega),
        fun h0 => absurd h0 hden⟩
      exact_mod_cast Rat.den_pos _
    · rw [hd]
      rw [show a * ((((points.getD i ⟨0, 0⟩).y : ℚ) *
            (((lagNumDen points i).1 : ℚ) /
              ((lagNumDen points i).2 : ℚ))).den : Int)
          + (((points.getD i ⟨0, 0⟩).y : ℚ) *
            (((lagNumDen points i).1 : ℚ) /
              ((lagNumDen points i).2 : ℚ))).num * 0
          = a * ((((points.getD i ⟨0, 0⟩).y : ℚ) *
            (((lagNumDen points i).1 : ℚ) /
              ((lagNumDen points i).2 : ℚ))).den : Int) from by ring,
        show (0 : Int) * ((((points.getD i ⟨0, 0⟩).y : ℚ) *
            (((lagNumDen points i).1 : ℚ) /
              ((lagNumDen points i).2 : ℚ))).den : Int) = 0 from by ring]
      rcases simplify_zden (a * ((((points.getD i ⟨0, 0⟩).y : ℚ) *
          (((lagNumDen points i).1 : ℚ) /
            ((lagNumDen points i).2 : ℚ))).den : Int)) with
        ⟨h0, _⟩ | ⟨_, s3, hsz3, hs3⟩
      · refine absurd h0 (mul_ne_zero ha ?_)
        have h1 : (0 : Int) < ((((points.getD i ⟨0, 0⟩).y : ℚ) *
            (((lagNumDen points i).1 : ℚ) /
              ((lagNumDen points i).2 : ℚ))).den : Int) := by
          exact_mod_cast Rat.den_pos _
        omega
      · rw [hsz3]
        exact Or.inr ⟨s3, 0, rfl, Or.inr ⟨rfl, hs3⟩,
          fun _ => rfl, fun _ => rfl⟩

theorem except_bind_err {α β : Type} (e : Err) (k : α → Except Err β) :
    (Except.error e : Except Err α) >>= k = Except.error e := rfl

theorem lagFold_cases (points : List Point) :
    ∀ (idxs : List Nat) (a d : Int),
    (0 < d ∨ (d = 0 ∧ a ≠ 0)) →
    idxs.foldlM (lagStep points) (a, d) = Except.error Err.divisionByZero
    ∨ ∃ r e, idxs.foldlM (lagStep points) (a, d) = Except.ok (r, e)
        ∧ (0 < e ∨ (e = 0 ∧ r ≠ 0))
        ∧ ((d = 0 ∨ ∃ i ∈ idxs, (lagNumDen points i).2 = 0) → e = 0)
  | [], a, d, hacc => by
    rw [List.foldlM_nil, except_pure_eq]
    refine Or.inr ⟨a, d, rfl, hacc, ?_⟩
    rintro (hd | ⟨i, hi, _⟩)
    · exact hd
    · exact absurd hi (List.not_mem_nil i)
  | i :: idxs, a, d, hacc => by
    rw [List.foldlM_cons]
    rcases lagStep_cases points i a d hacc with herr | ⟨r, e, hok, hinv, hzd, hzi⟩
    · rw [herr, except_bind_err]
      exact Or.inl rfl
    · rw [hok, except_bind_ok]
      rcases lagFold_cases points idxs r e hinv with herr2 | ⟨r2, e2, hok2, hinv2, hcond2⟩
      · rw [herr2]
        exact Or.inl rfl
      · rw [hok2]
        refine Or.inr ⟨r2, e2, rfl, hinv2, ?_⟩
        rintro (hd | ⟨i', hi', hden'⟩)
        · exact hcond2 (Or.inl (hzd hd))
        · rcases List.mem_cons.mp hi' with rfl | hmem
          · exact hcond2 (Or.inl (hzi hden'))
          · exact hcond2 (Or.inr ⟨i', hmem, hden'⟩)

/-- C3 amended: an input list in which two points share an abscissa
always aborts the interpolation with the `divisionByZero` kind — the
zero denominator is hit by the `BigInt` division `0n / 0n` inside
`simplify`, there being no `duplicateAbscissa` check before the
division — and no value is ever silently returned. -/
theorem lagrange_dup_err (points : List Point)
    (hdup : ∃ i j, i < points.length ∧ j < points.length ∧ i ≠ j
      ∧ (points.getD i ⟨0, 0⟩).x = (points.getD j ⟨0, 0⟩).x) :
    lagrangeAtZero points = Except.error Err.divisionByZero := by
  obtain ⟨i, j, hi, hj, hij, hx⟩ := hdup
  have hden : (lagNumDen points i).2 = 0 := by
    rw [lagNumDen_eq]
    apply List.prod_eq_zero
    refine List.mem_map.mpr ⟨j, List.mem_range.mpr hj, ?_⟩
    rw [if_neg hij]
    omega
  unfold lagrangeAtZero
  rcases lagFold_cases points (List.range points.length) 0 1 (by norm_num)
    with herr | ⟨r, e, hok, _, hcond⟩
  · rw [herr, jsBind_err]
  · rw [hok, jsBind_ok]
    have he : e = 0 := hcond (Or.inr ⟨i, List.mem_range.mpr hi, hden⟩)
    rw [if_pos (show ((r, e).2 = 0) from he)]

theorem lagrange_dup_err_witness :
    lagrangeAtZero [⟨1, 5⟩, ⟨1, 6⟩] = Except.error Err.divisionByZero :=
  lagrange_dup_err [⟨1, 5⟩, ⟨1, 6⟩] ⟨0, 1, by decide⟩

/-- C3 counterexample: on the duplicate-abscissa input
`(1,5), (1,6)` the error actually signalled is `divisionByZero` (the
`BigInt` `0n / 0n` RangeError raised inside the division itself), which
is a different kind from the `duplicateAbscissa` signal the claim says
is raised before any division is attempted. -/
theorem duplicateAbscissa_cex :
    lagrangeAtZero [⟨1, 5⟩, ⟨1, 6⟩] = Except.error Err.divisionByZero
    ∧ Err.divisionByZero ≠ Err.duplicateAbscissa := by
  decide

/-! ### Tie-breaking: the strict-maximum scan keeps the first maximum -/

theorem maxCount_ge : ∀ (freq : List (Int × Nat)), ∀ e ∈ freq,
    e.2 ≤ maxCount freq
  | [], e, he => absurd he (List.not_mem_nil e)
  | e0 :: freq, e, he => by
    rw [maxCount]
    rcases List.mem_cons.mp he with rfl | hmem
    · exact Nat.le_max_left _ _
    · exact le_trans (maxCount_ge freq e hmem) (Nat.le_max_right _ _)

theorem pickBest_halt : ∀ (freq : List (Int × Nat)) (acc : Option Int × Nat),
    (∀ e ∈ freq, e.2 ≤ acc.2) → freq.foldl pbStep acc = acc
  | [], _, _ => rfl
  | e :: freq, acc, h => by
    rw [List.foldl_cons]
    have hstep : pbStep acc e = acc := by
      rw [pbStep, if_neg (by
        have := h e (List.mem_cons_self e freq)
        omega)]
    rw [hstep]
    exact pickBest_halt freq acc (fun e' he' => h e' (List.mem_cons_of_mem _ he'))

theorem pickBest_go : ∀ (freq : List (Int × Nat)) (acc : Option Int × Nat),
    acc.2 < maxCount freq →
    ∃ s, freq.find? (fun e => e.2 == maxCount freq)
        = some (s, maxCount freq)
      ∧ freq.foldl pbStep acc = (some s, maxCount freq)
  | [], acc, h => absurd h (by rw [maxCount]; omega)
  | e :: freq, acc, h => by
    by_cases he : e.2 = maxCount (e :: freq)
    · refine ⟨e.1, ?_, ?_⟩
      · rw [List.find?_cons_of_pos _ (by simp [he])]
        exact congrArg some (Prod.ext rfl he)
      · rw [List.foldl_cons]
        have hstep : pbStep acc e = (some e.1, e.2) := by
          rw [pbStep, if_pos (by omega)]
        rw [hstep, pickBest_halt freq (some e.1, e.2) (fun e' he' => by
          have h1 := maxCount_ge (e :: freq) e' (List.mem_cons_of_mem _ he')
          simp only []
          omega)]
        rw [show ((some e.1, e.2) : Option Int × Nat)
          = (some e.1, maxCount (e :: freq)) from by rw [he]]
    · have hmax : maxCount (e :: freq) = maxCount freq := by
        rw [maxCount] at he ⊢
        rcases max_choice e.2 (maxCount freq) with h1 | h1
        · exact absurd h1.symm he
        · exact h1
      have helt : e.2 < maxCount (e :: freq) := by
        have := maxCount_ge (e :: freq) e (List.mem_cons_self e freq)
        omega
      have hacc' : (pbStep acc e).2 < maxCount freq := by
        rw [pbStep]
        by_cases hgt : e.2 > acc.2
        · rw [if_pos hgt]
          simp only []
          omega
        · rw [if_neg hgt]
          omega
      obtain ⟨s, hfind, hfold⟩ := pickBest_go freq (pbStep acc e) hacc'
      refine ⟨s, ?_, ?_⟩
      · rw [List.find?_cons_of_neg _ (by simpa using he), hmax]
        exact hfind
      · rw [List.foldl_cons, hmax]
        exact hfold

theorem tally_fold_ok :
    ∀ (combos : List (List Point)) (freq : List (Int × Nat)),
    (∀ c ∈ combos, ((lagrangeAtZero c).toOption.isSome : Bool) = true) →
    combos.foldlM tallyStep freq =
      Except.ok ((combos.filterMap
        (fun c => (lagrangeAtZero c).toOption)).foldl bumpFreq freq)
  | [], freq, _ => by
    rw [List.foldlM_nil, except_pure_eq]
    rfl
  | c :: combos, freq, h => by
    have hc := h c (List.mem_cons_self c combos)
    rcases hE : lagrangeAtZero c with e | v
    · rw [hE] at hc
      simp [Except.toOption] at hc
    · rw [List.foldlM_cons]
      have hstep : tallyStep freq c = Except.ok (bumpFreq freq v) := by
        rw [tallyStep, hE, jsBind_ok]
      have hfm : (c :: combos).filterMap
          (fun c' => (lagrangeAtZero c').toOption)
          = v :: combos.filterMap (fun c' => (lagrangeAtZero c').toOption) :=
        List.filterMap_cons_some (by
          show (lagrangeAtZero c).toOption = some v
          rw [hE]
          rfl)
      rw [hstep, except_bind_ok,
        tally_fold_ok combos (bumpFreq freq v)
          (fun c' h' => h c' (List.mem_cons_of_mem _ h')),
        hfm, List.foldl_cons]

theorem bumpFreq_ne_nil (freq : List (Int × Nat)) (s : Int) :
    bumpFreq freq s ≠ [] := by
  match freq with
  | [] => simp [bumpFreq]
  | (k, c) :: rest =>
    rw [bumpFreq]
    by_cases hk : k = s
    · rw [if_pos hk]
      simp
    · rw [if_neg hk]
      simp

theorem bumpFreq_pos : ∀ (freq : List (Int × Nat)) (s : Int),
    (∀ e ∈ freq, 0 < e.2) → ∀ e ∈ bumpFreq freq s, 0 < e.2
  | [], s, _, e, he => by
    rw [bumpFreq] at he
    rcases List.mem_cons.mp he with rfl | hmem
    · exact Nat.one_pos
    · exact absurd hmem (List.not_mem_nil e)
  | (k, c) :: rest, s, h, e, he => by
    rw [bumpFreq] at he
    by_cases hk : k = s
    · rw [if_pos hk] at he
      rcases List.mem_cons.mp he with rfl | hmem
      · exact Nat.succ_pos c
      · exact h e (List.mem_cons_of_mem _ hmem)
    · rw [if_neg hk] at he
      rcases List.mem_cons.mp he with rfl | hmem
      · exact h (k, c) (List.mem_cons_self _ _)
      · exact bumpFreq_pos rest s
          (fun e' he' => h e' (List.mem_cons_of_mem _ he')) e hmem

theorem tally_pos : ∀ (vals : List Int) (freq : List (Int × Nat)),
    (∀ e ∈ freq, 0 < e.2) → ∀ e ∈ vals.foldl bumpFreq freq, 0 < e.2
  | [], _, h, e, he => h e he
  | v :: vals, freq, h, e, he => by
    rw [List.foldl_cons] at he
    exact tally_pos vals (bumpFreq freq v) (bumpFreq_pos freq v h) e he

theorem tally_ne_nil : ∀ (vals : List Int) (freq : List (Int × Nat)),
    freq ≠ [] ∨ vals ≠ [] → vals.foldl bumpFreq freq ≠ []
  | [], freq, h => by
    rcases h with h | h
    · exact h
    · exact absurd rfl h
  | v :: vals, freq, _ => by
    rw [List.foldl_cons]
    exact tally_ne_nil vals (bumpFreq freq v) (Or.inl (bumpFreq_ne_nil freq v))

theorem maxCount_pos (freq : List (Int × Nat)) (hne : freq ≠ [])
    (hpos : ∀ e ∈ freq, 0 < e.2) : 0 < maxCount freq := by
  match freq with
  | [] => exact absurd rfl hne
  | e :: rest =>
    rw [maxCount]
    exact lt_of_lt_of_le (hpos e (List.mem_cons_self e rest))
      (Nat.le_max_left _ _)

/-- C10: with `n ≥ k ≥ 1` and every subset interpolating successfully,
`findSecret` succeeds (it never reports any `noMajority` condition) and
— also under ties for the maximum tally — deterministically returns the
entry of the insertion-ordered tally that first reaches the maximum
count: the candidate whose value was first produced in
subset-enumeration order, as selected by the strict `count > bestCount`
scan.  The returned count is the maximum tally and the total is the
number of combinations. -/
theorem findSecret_first_max (points : List Point) (k : Nat)
    (hk : 1 ≤ k) (hn : k ≤ points.length)
    (hok : ∀ c ∈ combinations points k,
      ((lagrangeAtZero c).toOption.isSome : Bool) = true) :
    ∃ s, (tallyOf (comboVals points k)).find?
        (fun e => e.2 == maxCount (tallyOf (comboVals points k)))
        = some (s, maxCount (tallyOf (comboVals points k)))
      ∧ findSecret points k =
        Except.ok ⟨s, maxCount (tallyOf (comboVals points k)),
          (combinations points k).length⟩ := by
  have hcne : combinations points k ≠ [] := by
    intro hnil
    have hlen := combinations_length points k
    rw [hnil] at hlen
    have hpos := Nat.choose_pos hn
    rw [List.length_nil] at hlen
    omega
  have hvalsne : comboVals points k ≠ [] := by
    rcases hc : combinations points k with _ | ⟨c, cs⟩
    · exact absurd hc hcne
    · have hcmem : c ∈ combinations points k := by
        rw [hc]
        exact List.mem_cons_self c cs
      have hsome := hok c hcmem
      rcases hE : lagrangeAtZero c with e | v
      · rw [hE] at hsome
        simp [Except.toOption] at hsome
      · have hfc : (fun c' => (lagrangeAtZero c').toOption) c = some v := by
          show (lagrangeAtZero c).toOption = some v
          rw [hE]
          rfl
        have hfm : (c :: cs).filterMap
            (fun c' => (lagrangeAtZero c').toOption)
            = v :: cs.filterMap (fun c' => (lagrangeAtZero c').toOption) :=
          List.filterMap_cons_some hfc
        rw [comboVals, hc, hfm]
        simp
  have hFne : tallyOf (comboVals points k) ≠ [] := by
    rw [tallyOf]
    exact tally_ne_nil (comboVals points k) [] (Or.inr hvalsne)
  have hFpos : ∀ e ∈ tallyOf (comboVals points k), 0 < e.2 := by
    rw [tallyOf]
    exact tally_pos (comboVals points k) []
      (fun e he => absurd he (List.not_mem_nil e))
  have hM : 0 < maxCount (tallyOf (comboVals points k)) :=
    maxCount_pos _ hFne hFpos
  obtain ⟨s, hfind, hfold⟩ :=
    pickBest_go (tallyOf (comboVals points k)) (none, 0) (by
      show (0 : Nat) < maxCount (tallyOf (comboVals points k))
      exact hM)
  refine ⟨s, hfind, ?_⟩
  simp only [findSecret]
  rw [tally_fold_ok (combinations points k) [] hok, jsBind_ok]
  have hpb : pickBest (tallyOf (comboVals points k))
      = (some s, maxCount (tallyOf (comboVals points k))) := by
    rw [pickBest]
    exact hfold
  rw [show ((combinations points k).filterMap
      (fun c => (lagrangeAtZero c).toOption)).foldl bumpFreq []
      = tallyOf (comboVals points k) from rfl]
  rw [hpb]

theorem findSecret_first_max_witness :
    ∃ s, (tallyOf (comboVals [⟨1, 5⟩, ⟨2, 7⟩, ⟨3, 9⟩, ⟨4, 99⟩] 2)).find?
        (fun e => e.2 ==
          maxCount (tallyOf (comboVals [⟨1, 5⟩, ⟨2, 7⟩, ⟨3, 9⟩, ⟨4, 99⟩] 2)))
        = some (s,
          maxCount (tallyOf (comboVals [⟨1, 5⟩, ⟨2, 7⟩, ⟨3, 9⟩, ⟨4, 99⟩] 2)))
      ∧ findSecret [⟨1, 5⟩, ⟨2, 7⟩, ⟨3, 9⟩, ⟨4, 99⟩] 2 =
        Except.ok ⟨s,
          maxCount (tallyOf (comboVals [⟨1, 5⟩, ⟨2, 7⟩, ⟨3, 9⟩, ⟨4, 99⟩] 2)),
          (combinations ([⟨1, 5⟩, ⟨2, 7⟩, ⟨3, 9⟩, ⟨4, 99⟩] : List Point)
            2).length⟩ :=
  findSecret_first_max [⟨1, 5⟩, ⟨2, 7⟩, ⟨3, 9⟩, ⟨4, 99⟩] 2
    (by decide) (by decide) (by decide)

end Hd
